import Mathlib

/-!
Verification of the syntax-tree-driven source rewriting core of AutoDoc-AI
(src/code/utils.py).  Buffers are modelled as lists of characters (the code
performs all offset arithmetic on UTF-8 bytes; for the properties below the
byte/character distinction is irrelevant and one list element stands for one
byte).  Python string primitives (split, strip, find, rfind, slicing) are
modelled by executable Lean functions with the same semantics, and the
functions of utils.py are translated on top of them, keeping their names.
Calls to the external LLM are modelled as oracle parameters of type
`Str → Option Str`, where `none` models the call raising an exception.
-/

/-- Characters standing for the bytes of a source buffer or Python string. -/
abbrev Str := List Char

/-- Conversion from a Lean string literal to the buffer model. -/
def strOf (s : String) : Str := s.data

/-- Whitespace set of Python str.strip / str.split. -/
def isPySpace (c : Char) : Bool :=
  c = ' ' || c = '\t' || c = '\n' || c = '\r' || c = '\x0b' || c = '\x0c'

/-- Replicated spaces, modelling `" " * n`. -/
def spaces (n : Nat) : Str := List.replicate n ' '

/-- Accumulator form of splitting on a single separator character. -/
def splitOnCharAux (sep : Char) : Str → Str → List Str
  | [], cur => [cur.reverse]
  | c :: cs, cur =>
    if c = sep then cur.reverse :: splitOnCharAux sep cs []
    else splitOnCharAux sep cs (c :: cur)

/-- Python `s.split(sep)` for a one-character separator: keeps empty pieces,
    and the split of the empty string is `[[]]`. -/
def splitOnChar (sep : Char) (s : Str) : List Str := splitOnCharAux sep s []

/-- Python `s.split("\n")`. -/
def splitNl (s : Str) : List Str := splitOnChar '\n' s

/-- Python `sep.join(lines)`. -/
def joinWith (sep : Str) : List Str → Str
  | [] => []
  | [x] => x
  | x :: xs => x ++ sep ++ joinWith sep xs

/-- Python `"\n".join(lines)`. -/
def joinNl (lines : List Str) : Str := joinWith (strOf "\n") lines

/-- Python `s.lstrip()`. -/
def pyLstrip (s : Str) : Str := s.dropWhile isPySpace

/-- Python `s.rstrip()`. -/
def pyRstrip (s : Str) : Str := (s.reverse.dropWhile isPySpace).reverse

/-- Python `s.strip()` (trimming both ends; the order of the two one-sided
    trims does not matter, the left-first form is used). -/
def pyStrip (s : Str) : Str := pyLstrip (pyRstrip s)

/-- Accumulator form of whitespace splitting. -/
def splitWsAux : Str → Str → List Str
  | [], cur => if cur.isEmpty then [] else [cur.reverse]
  | c :: cs, cur =>
    if isPySpace c then
      if cur.isEmpty then splitWsAux cs [] else cur.reverse :: splitWsAux cs []
    else splitWsAux cs (c :: cur)

/-- Python `s.split()` with no argument: split on whitespace runs, dropping
    empty pieces. -/
def pySplitWs (s : Str) : List Str := splitWsAux s []

/-- Test whether `needle` occurs in `hay` starting exactly at index `i`. -/
def matchesAt (hay needle : Str) (i : Nat) : Bool :=
  (hay.drop i).take needle.length = needle

/-- Python `hay.find(needle, start, stop)`, returning `none` for -1: the
    least index `i ≥ start` with a full occurrence ending by `min stop len`. -/
def bfind (hay needle : Str) (start stop : Nat) : Option Nat :=
  let eff := min stop hay.length
  (List.range' start (eff - start)).find?
    (fun i => i + needle.length ≤ eff && matchesAt hay needle i)

/-- Python `hay.rfind(needle, start, stop)`, returning `none` for -1: the
    greatest matching index in the same range. -/
def brfind (hay needle : Str) (start stop : Nat) : Option Nat :=
  let eff := min stop hay.length
  ((List.range' start (eff - start)).reverse).find?
    (fun i => i + needle.length ≤ eff && matchesAt hay needle i)

/-- Python `needle in hay`. -/
def containsSub (hay needle : Str) : Bool := (bfind hay needle 0 hay.length).isSome

/-- Splicing a block into a buffer at position `p`, modelling
    `source[:p] + block + source[p:]` (utils.py lines 395 and 415). -/
def insertAt (src : Str) (p : Nat) (block : Str) : Str :=
  src.take p ++ block ++ src.drop p

/-- The insertion loop of `edit_function_declarations` (utils.py line 390):
    each entry is a (position, rendered block) pair and is spliced into the
    progressively mutated buffer, first entry first.  The code iterates
    `reversed(summaries)` over the ascending-sorted list, so the entry list
    passed here is in descending anchor order. -/
def applyInsertions (entries : List (Nat × Str)) (src : Str) : Str :=
  entries.foldl (fun buf e => insertAt buf e.1 e.2) src

/-- Total length of the blocks of the entries at positions `≤ a`: the offset
    by which the byte originally at `a` is shifted by the insertions. -/
def insertedBefore (entries : List (Nat × Str)) (a : Nat) : Nat :=
  ((entries.filter (fun e => decide (e.1 ≤ a))).map (fun e => e.2.length)).sum

/-- The ordering step of `edit_function_declarations` (utils.py lines 387
    and 390): `summaries.sort(key=lambda x: x[0].start_byte)` followed by the
    `reversed(...)` iteration, i.e. a stable ascending sort then reversal. -/
def pySortDesc (entries : List (Nat × Str)) : List (Nat × Str) :=
  (entries.mergeSort (fun e f => decide (e.1 ≤ f.1))).reverse

/-- Inner word loop of `wrap_triple_slash_comments` (utils.py lines 467-474):
    `current` is the line under construction; on overflow the current line is
    emitted and a fresh one is started from the marker and the word. -/
def wrapWords (ind : Nat) (cur : Str) : List Str → List Str
  | [] => [cur]
  | w :: ws =>
    if 120 < cur.length + w.length + 1 then
      cur :: wrapWords ind (spaces ind ++ strOf "/// " ++ w) ws
    else
      wrapWords ind (cur ++ ' ' :: w) ws

/-- Per-line body of `wrap_triple_slash_comments` (utils.py lines 465-474):
    `indent = len(line) - len(line.lstrip())` then word wrapping starting
    from the first word.  The empty-words case cannot arise for the lines the
    caller keeps (they start with "///"), so it contributes nothing. -/
def wrapLine (line : Str) : List Str :=
  match pySplitWs line with
  | [] => []
  | w :: ws => wrapWords (line.length - (pyLstrip line).length) w ws

/-- The list of output lines of `wrap_triple_slash_comments` (utils.py lines
    456-476): lines are stripped, processing stops at the first line not
    starting with "///" (the `break`), and each kept line is word-wrapped. -/
def wrap_triple_slash_lines (text : Str) : List Str :=
  ((((splitNl text).map pyStrip).takeWhile
      (fun l => (strOf "///").isPrefixOf l)).map wrapLine).flatten

/-- Translation of `wrap_triple_slash_comments` (utils.py lines 456-476). -/
def wrap_triple_slash_comments (text : Str) : Str :=
  joinNl (wrap_triple_slash_lines text)

/-- Translation of `wrap_python_comments` (utils.py lines 479-484): every
    line is prefixed with "/// "; no wrapping is performed. -/
def wrap_python_comments (text : Str) : Str :=
  joinNl ((splitNl text).map (fun line => strOf "/// " ++ line))

/-- Translation of `wrap_docstring` (utils.py lines 487-497): empty marker on
    blank input, otherwise each line is stripped, its first 8 characters are
    removed (`line[8:]`), it is re-indented to `indent_level + 4`, and the
    result is surrounded with `"""` delimiters. -/
def wrap_docstring (text : Str) (indent_level : Nat) : Str :=
  if pyStrip text = [] then []
  else
    spaces (indent_level + 4) ++ strOf "\"\"\"\n"
      ++ joinNl ((splitNl text).map
            (fun line => spaces (indent_level + 4) ++ (pyStrip line).drop 8))
      ++ strOf "\"\"\""

/-- Fold of `extract_code_from_message` (utils.py lines 500-509) over the
    lines, carrying the `in_code` flag toggled by "```" lines. -/
def extractCodeAux : List Str → Bool → Str
  | [], _ => []
  | l :: ls, inside =>
    if containsSub l (strOf "```") then extractCodeAux ls (!inside)
    else if inside then l ++ '\n' :: extractCodeAux ls inside
    else extractCodeAux ls inside

/-- Translation of `extract_code_from_message` (utils.py lines 500-509). -/
def extract_code_from_message (message : Str) : Str :=
  extractCodeAux (splitNl message) false

/-- Fold of `extract_docstring_from_code` (utils.py lines 512-521) over the
    lines, carrying the `in_docstring` flag toggled by "'''" lines. -/
def extractDocstringAux : List Str → Bool → Str
  | [], _ => []
  | l :: ls, inside =>
    if containsSub l (strOf "\x27\x27\x27") then extractDocstringAux ls (!inside)
    else if inside then l ++ '\n' :: extractDocstringAux ls inside
    else extractDocstringAux ls inside

/-- Translation of `extract_docstring_from_code` (utils.py lines 512-521). -/
def extract_docstring_from_code (code : Str) : Str :=
  extractDocstringAux (splitNl code) false

/-- Translation of `chain_summarize` (utils.py lines 54-64).  `cs` is the
    oracle standing for `sum_chain.invoke` on the split documents of `text`;
    `none` models the call (or anything in the `try` block) raising, in which
    case the function returns the empty string. -/
def chain_summarize (cs : Str → Option Str) (text : Str) (ext : Str) : Str :=
  match cs text with
  | none => []
  | some out =>
    if ext = strOf "swift" then wrap_triple_slash_comments out
    else wrap_python_comments (extract_docstring_from_code out)

/-- Translation of `generate_function_documentation` (utils.py lines
    156-172).  `gfd` is the oracle standing for the LLMChain call; `none`
    models it raising. -/
def generate_function_documentation (gfd : Str → Option Str)
    (function_implementation : Str) (ext : Str) : Option Str :=
  (gfd function_implementation).map (fun text =>
    if ext = strOf "swift" then wrap_triple_slash_comments text
    else extract_code_from_message text)

/-- Translation of `generate_function_summary` (utils.py lines 431-445): the
    primary path wraps the generated documentation once more; any exception
    (a `none` oracle answer) falls back to `chain_summarize` on the whole
    function text. -/
def generate_function_summary (gfd cs : Str → Option Str)
    (func_body : Str) (ext : Str) : Str :=
  match generate_function_documentation gfd func_body ext with
  | some doc =>
    if ext = strOf "swift" then wrap_triple_slash_comments doc
    else wrap_python_comments (extract_docstring_from_code doc)
  | none => chain_summarize cs func_body ext

/-- Translation of `generate_combined_summary` (utils.py lines 448-453). -/
def generate_combined_summary (cs : Str → Option Str)
    (summaries : List Str) (ext : Str) : Str :=
  chain_summarize cs
    (strOf "/// Documentation of all methods and properties in the current type, should not be included in final documentation:\n///\n"
      ++ joinWith (strOf "\n///\n") summaries) ext

/-- Rendering step of the Swift branch of the insertion loop (utils.py lines
    392-394): each summary line is indented by the node's start column, the
    first `col` characters are dropped again, and a newline plus indent is
    appended. -/
def swiftRender (col : Nat) (summary : Str) : Str :=
  let indent := spaces col
  let s1 := joinNl ((splitNl summary).map (fun line => indent ++ line))
  (s1.drop col) ++ '\n' :: indent

/-- Swift branch of the insertion loop of `edit_function_declarations`
    (utils.py lines 391-396): the rendered summary is spliced at the node's
    start byte, with no emptiness guard. -/
def edit_swift_insertion (src : Str) (start_byte col : Nat) (summary : Str) : Str :=
  insertAt src start_byte (swiftRender col summary)

/-- Anchor data of a SummaryEntry node used by the Swift branch: original
    start byte and start column. -/
structure SwiftAnchor where
  start_byte : Nat
  col : Nat
deriving DecidableEq, Repr

/-- The Swift-branch insertion loop over a list of SummaryEntries in the
    order the code iterates them (descending start byte after the sort). -/
def edit_swift_loop (entries : List (SwiftAnchor × Str)) (src : Str) : Str :=
  entries.foldl
    (fun buf e => edit_swift_insertion buf e.1.start_byte e.1.col e.2) src

/-- Python branch of the insertion loop of `edit_function_declarations`
    (utils.py lines 397-416): the docstring is rendered with
    `wrap_docstring`; nothing is inserted when it is empty or when no "def"
    occurs strictly before the node's start byte; otherwise the insertion
    point is the first byte after the first newline following the first
    colon of the node span, falling back to the start of the line containing
    the located "def" occurrence. -/
def edit_python_insertion (src : Str) (start_byte end_byte col : Nat)
    (summary : Str) : Str :=
  let docstring := wrap_docstring summary col
  if docstring = [] then src
  else
    match brfind src (strOf "def") 0 start_byte with
    | none => src
    | some def_start =>
      let signature_end :=
        match bfind src (strOf ":") start_byte end_byte with
        | none => 0
        | some i => i + 1
      let ip0 :=
        match bfind src (strOf "\n") signature_end src.length with
        | none => 0
        | some i => i + 1
      let ip :=
        if ip0 ≤ signature_end then
          match brfind src (strOf "\n") 0 def_start with
          | none => 0
          | some i => i + 1
        else ip0
      insertAt src ip (docstring ++ strOf "\n\n")

/-- Anchor data of a SummaryEntry node: original start byte, end byte and
    start column, read off the parse tree before any mutation. -/
structure PyAnchor where
  start_byte : Nat
  end_byte : Nat
  col : Nat
deriving DecidableEq, Repr

/-- The Python-branch insertion loop over a list of SummaryEntries in the
    order the code iterates them (descending start byte after the sort). -/
def edit_python_loop (entries : List (PyAnchor × Str)) (src : Str) : Str :=
  entries.foldl
    (fun buf e => edit_python_insertion buf e.1.start_byte e.1.end_byte e.1.col e.2) src

/-- Translation of `LANG_MAPPINGS` (utils.py lines 303-308). -/
def LANG_MAPPINGS (s : Str) : Option Str :=
  if s = strOf "py" then some (strOf "python")
  else if s = strOf "js" then some (strOf "javascript")
  else if s = strOf "ts" then some (strOf "typescript")
  else if s = strOf "swift" then some (strOf "swift")
  else none

/-- Exceptions raised by the language-tag resolution: `indexError` when the
    basename has no dot (`file.split(".")[1]` is out of range), `keyError`
    when the looked-up segment is not a key of `LANG_MAPPINGS`. -/
inductive PyErr where
  | indexError : PyErr
  | keyError : Str → PyErr
deriving DecidableEq, Repr

deriving instance DecidableEq for Except

/-- Language-tag resolution `LANG_MAPPINGS[file.split(".")[1]]` performed
    identically by `parse_source` (utils.py lines 313-314) and by
    `edit_function_declarations` (utils.py lines 333-334): the tag is looked
    up for the segment between the first and second dot of the basename. -/
def resolveLangTag (file : Str) : Except PyErr Str :=
  match (splitOnChar '.' file)[1]? with
  | none => Except.error PyErr.indexError
  | some seg =>
    match LANG_MAPPINGS seg with
    | none => Except.error (PyErr.keyError seg)
    | some tag => Except.ok tag

/-- Pipeline skeleton of autodoc.py (lines 41-57): after `read_file` the
    `parse_source` node runs, and every remaining node - including all the
    output-writing nodes - runs only afterwards, modelled by the `steps`
    parameter.  No step catches the resolution error (autodoc.py line 75
    catches only the recursion-limit error), so it aborts the run before any
    output step executes. -/
def runPipeline {α : Type} (steps : List (α → α)) (file : Str) (s : α) :
    Except PyErr α :=
  match resolveLangTag file with
  | Except.error e => Except.error e
  | Except.ok _ => Except.ok (steps.foldl (fun x f => f x) s)

/-- Fields of a tree-sitter node used by the class-summary grouping: the
    node type tag, the node identity, and the node's source text. -/
structure NodeData where
  typ : String
  id : Nat
  text : Str
deriving DecidableEq, Repr

/-- Parse-tree node with its ordered children. -/
inductive PTree where
  | node : NodeData → List PTree → PTree

/-- Data of a tree node. -/
def PTree.data : PTree → NodeData
  | .node d _ => d

/-- Children of a tree node. -/
def PTree.children : PTree → List PTree
  | .node _ cs => cs

/-- Class-like type tags (utils.py lines 340 and 365). -/
def isClassType (t : String) : Bool :=
  t = "class_declaration" || t = "class_definition"

/-- Function/property type tags collected as members (utils.py line 359). -/
def isFuncType (t : String) : Bool :=
  t = "function_declaration" || t = "function_definition" || t = "property_declaration"

/-- Body type tags (utils.py line 344). -/
def isBodyType (t : String) : Bool :=
  t = "class_body" || t = "block"

/-- The designated body child of a class node: the first child whose type is
    a body tag (`next((child for child in node.children if ...), None)`,
    utils.py line 344). -/
def classBody (c : PTree) : Option PTree :=
  c.children.find? (fun ch => isBodyType ch.data.typ)

/-- The discoverable member declarations of a class: the function/property
    typed direct children of its body (utils.py lines 356-367).  Empty when
    the class has no body child. -/
def memberDecls (c : PTree) : List PTree :=
  match classBody c with
  | none => []
  | some b => b.children.filter (fun ch => isFuncType ch.data.typ)

mutual

/-- Pre-order collection of the class-typed nodes of a tree, as visited by
    the cursor recursion of `process_class_declarations` (utils.py lines
    337-353): every node is visited and class-typed ones are recorded. -/
def classesOf : PTree → List PTree
  | .node d cs =>
    (if isClassType d.typ then [PTree.node d cs] else []) ++ classesOfList cs

/-- Pre-order collection over a forest of sibling subtrees. -/
def classesOfList : List PTree → List PTree
  | [] => []
  | c :: cs => classesOf c ++ classesOfList cs

end

/-- The class-level summary text for one class (utils.py lines 343-348 and
    376-384): when the class has discoverable members, the member summaries
    (already produced by `generate_function_summary`) are combined by
    `generate_combined_summary`; when the dict entry stayed an empty list it
    was replaced by the class node itself and the whole class text goes
    through `chain_summarize`. -/
def classText (gfd cs : Str → Option Str) (ext : Str) (c : PTree) : Str :=
  match memberDecls c with
  | [] => chain_summarize cs c.data.text ext
  | ms => generate_combined_summary cs
      (ms.map (fun m => generate_function_summary gfd cs m.data.text ext)) ext

/-- The class-level SummaryEntries appended by the combine loop (utils.py
    lines 376-384), one per recorded class in visit order.  In the membered
    case the code anchors at `children[0][0].parent.parent`, which is the
    class node itself, since members are direct children of the class body
    and the body is a direct child of the class. -/
def edit_class_level_entries (gfd cs : Str → Option Str) (ext : Str)
    (t : PTree) : List (PTree × Str) :=
  (classesOf t).map (fun c => (c, classText gfd cs ext c))

/-- Appending a suffix to the last element of a list of lines (used to state
    how the closing `"""` of `wrap_docstring` attaches to the last line). -/
def appendLast (suf : Str) : List Str → List Str
  | [] => []
  | [x] => [x ++ suf]
  | x :: y :: xs => x :: appendLast suf (y :: xs)

/-- Concrete original buffer for instantiating the offset-correctness
    theorem. -/
def c1src : Str := strOf "abcdef"

/-- Concrete descending entry list for instantiating the offset-correctness
    theorem. -/
def c1entries : List (Nat × Str) := [(4, strOf "XY"), (2, strOf "Z")]

/-- Concrete buffer for instantiating the order-independence theorem. -/
def c3src : Str := strOf "hello"

/-- Concrete entry list for instantiating the order-independence theorem. -/
def c3l1 : List (Nat × Str) := [(1, strOf "A"), (4, strOf "B")]

/-- Permutation of `c3l1` in the opposite generation order. -/
def c3l2 : List (Nat × Str) := [(4, strOf "B"), (1, strOf "A")]

/-- A 150-character single-line input made of two-character words. -/
def c5text : Str := (List.replicate 50 (strOf "ab ")).flatten

/-- Concrete method node of the demonstration tree. -/
def demoMethod : PTree :=
  PTree.node ⟨"function_definition", 3, strOf "def m(self):\n    pass"⟩ []

/-- Concrete class body of the demonstration tree. -/
def demoBody : PTree := PTree.node ⟨"block", 2, strOf "body"⟩ [demoMethod]

/-- Concrete class node of the demonstration tree. -/
def demoClass : PTree :=
  PTree.node ⟨"class_definition", 1, strOf "class A:\n    def m(self):\n        pass"⟩ [demoBody]

/-- Concrete one-class parse tree used to instantiate the class-summary
    theorem. -/
def demoTree : PTree := PTree.node ⟨"module", 0, strOf "module"⟩ [demoClass]

/-! ### Helper lemmas about splicing -/

lemma length_insertAt (src b : Str) (p : Nat) (hp : p ≤ src.length) :
    (insertAt src p b).length = src.length + b.length := by
  simp [insertAt]
  omega

lemma insertAt_drop_high (src b : Str) (p a : Nat) (hp : p ≤ src.length)
    (hpa : p ≤ a) :
    (insertAt src p b).drop (a + b.length) = src.drop a := by
  have hlen : (src.take p ++ b).length = p + b.length := by
    simp [Nat.min_eq_left hp]
  have harith : a + b.length = (src.take p ++ b).length + (a - p) := by omega
  calc (insertAt src p b).drop (a + b.length)
      = ((src.take p ++ b) ++ src.drop p).drop ((src.take p ++ b).length + (a - p)) := by
        rw [insertAt, List.append_assoc, ← harith]
    _ = (src.drop p).drop (a - p) := List.drop_append (a - p)
    _ = src.drop a := by rw [List.drop_drop]; congr 1; omega

lemma insertAt_drop_take_low (src b : Str) (p a c : Nat) (hac : a ≤ c)
    (hcp : c ≤ p) (hp : p ≤ src.length) :
    ((insertAt src p b).drop a).take (c - a) = (src.drop a).take (c - a) := by
  have hlen : (src.take p).length = p := by simp [Nat.min_eq_left hp]
  have hap : a ≤ p := le_trans hac hcp
  have hdlen : ((src.take p).drop a).length = p - a := by simp [hlen]
  have h1 : (insertAt src p b).drop a
      = ((src.take p).drop a ++ b) ++ src.drop p := by
    rw [insertAt, List.drop_append_eq_append_drop, List.drop_append_eq_append_drop]
    have e1 : a - (src.take p).length = 0 := by omega
    have e2 : a - (src.take p ++ b).length = 0 := by
      simp only [List.length_append, hlen]
      omega
    rw [e1, e2, List.drop_zero, List.drop_zero]
  rw [h1, List.take_append_eq_append_take]
  have e3 : (c - a) - ((src.take p).drop a ++ b).length = 0 := by
    simp only [List.length_append, hdlen]
    omega
  rw [e3, List.take_zero, List.append_nil, List.take_append_eq_append_take, hdlen]
  have e4 : (c - a) - (p - a) = 0 := by omega
  rw [e4, List.take_zero, List.append_nil, List.drop_take, List.take_take]
  congr 1
  omega

lemma insertedBefore_cons (p : Nat) (b : Str) (t : List (Nat × Str)) (a : Nat) :
    insertedBefore ((p, b) :: t) a
      = (if p ≤ a then b.length else 0) + insertedBefore t a := by
  by_cases h : p ≤ a <;> simp [insertedBefore, List.filter_cons, h]

lemma insertedBefore_eq_of_all_le (t : List (Nat × Str)) (a a' : Nat)
    (hall : ∀ f ∈ t, f.1 ≤ a) (haa : a ≤ a') :
    insertedBefore t a' = insertedBefore t a := by
  unfold insertedBefore
  rw [List.filter_eq_self.mpr, List.filter_eq_self.mpr]
  · intro e he
    exact decide_eq_true (hall e he)
  · intro e he
    exact decide_eq_true (le_trans (hall e he) haa)

/-- C1.  Offset correctness of the descending-order insertion pass: applying
    the Rewriter's insertions with the (position, block) entry list in
    descending position order - the order `edit_function_declarations`
    iterates after sorting by anchor start byte - alters no byte outside the
    insertion points.  Every segment `[a, c)` of the original buffer that
    contains no insertion position strictly inside it reappears in the final
    buffer byte-identically and contiguously, shifted exactly by the total
    length of the blocks inserted at or before `a`; in particular every
    declaration's text, minus the inserted comment blocks, is byte-identical
    to its pre-insertion text. -/
theorem edit_descending_insertions_preserve_segments
    (entries : List (Nat × Str)) :
    ∀ (src : Str),
      List.Sorted (fun e f : Nat × Str => f.1 ≤ e.1) entries →
      (∀ e ∈ entries, e.1 ≤ src.length) →
      ∀ a c : Nat, a ≤ c → c ≤ src.length →
      (∀ e ∈ entries, e.1 ≤ a ∨ c ≤ e.1) →
      ((applyInsertions entries src).drop (a + insertedBefore entries a)).take (c - a)
        = (src.drop a).take (c - a) := by
  induction entries with
  | nil =>
    intro src _ _ a c hac hc _
    simp [applyInsertions, insertedBefore]
  | cons e t ih =>
    obtain ⟨p, b⟩ := e
    intro src hdesc hbound a c hac hc hseg
    obtain ⟨hfirst, hdt⟩ := List.sorted_cons.mp hdesc
    have hp : p ≤ src.length := hbound (p, b) (List.mem_cons_self _ _)
    have happly : applyInsertions ((p, b) :: t) src
        = applyInsertions t (insertAt src p b) := rfl
    have hBlen : (insertAt src p b).length = src.length + b.length :=
      length_insertAt src b p hp
    by_cases hpa : p ≤ a
    · -- the head block lands at or before the segment: the segment shifts
      have hta : ∀ f ∈ t, f.1 ≤ a := fun f hf => le_trans (hfirst f hf) hpa
      have hIB : insertedBefore ((p, b) :: t) a
          = b.length + insertedBefore t a := by
        rw [insertedBefore_cons, if_pos hpa]
      have hIBt : insertedBefore t (a + b.length) = insertedBefore t a :=
        insertedBefore_eq_of_all_le t a (a + b.length) hta (Nat.le_add_right _ _)
      have ihB := ih (insertAt src p b) hdt
        (fun f hf => by
          have := hfirst f hf
          omega)
        (a + b.length) (c + b.length) (by omega) (by omega)
        (fun f hf => Or.inl (by have := hta f hf; omega))
      have hdropB : (insertAt src p b).drop (a + b.length) = src.drop a :=
        insertAt_drop_high src b p a hp hpa
      have hidx : a + (b.length + insertedBefore t a)
          = (a + b.length) + insertedBefore t (a + b.length) := by
        rw [hIBt]
        omega
      have htake : (c + b.length) - (a + b.length) = c - a := by omega
      rw [htake, hdropB] at ihB
      rw [happly, hIB, hidx, ihB]
    · -- the head block lands at or after the segment end: the segment stays
      have hcp : c ≤ p := by
        rcases hseg (p, b) (List.mem_cons_self _ _) with h | h
        · omega
        · exact h
      have hIB : insertedBefore ((p, b) :: t) a = insertedBefore t a := by
        rw [insertedBefore_cons, if_neg hpa, Nat.zero_add]
      have ihB := ih (insertAt src p b) hdt
        (fun f hf => by
          have := hfirst f hf
          omega)
        a c hac (by omega)
        (fun f hf => hseg f (List.mem_cons_of_mem _ hf))
      rw [happly, hIB]
      calc ((applyInsertions t (insertAt src p b)).drop
              (a + insertedBefore t a)).take (c - a)
          = ((insertAt src p b).drop a).take (c - a) := ihB
        _ = (src.drop a).take (c - a) :=
            insertAt_drop_take_low src b p a c hac hcp hp

/-- Witness for C1: a concrete run with two descending insertions over
    "abcdef", checking that the untouched segment between them survives
    byte-identically at the shifted offset. -/
theorem edit_descending_insertions_preserve_segments_witness :
    (List.Sorted (fun e f : Nat × Str => f.1 ≤ e.1) c1entries
      ∧ (∀ e ∈ c1entries, e.1 ≤ c1src.length)
      ∧ 2 ≤ 4 ∧ 4 ≤ c1src.length
      ∧ (∀ e ∈ c1entries, e.1 ≤ 2 ∨ 4 ≤ e.1))
    ∧ ((applyInsertions c1entries c1src).drop
          (2 + insertedBefore c1entries 2)).take (4 - 2)
        = (c1src.drop 2).take (4 - 2) :=
  ⟨⟨by decide, by decide, by decide, by decide, by decide⟩,
    edit_descending_insertions_preserve_segments c1entries c1src
      (by decide) (by decide) 2 4 (by decide) (by decide) (by decide)⟩

/-- C3.  Order independence: the final buffer produced by the sort-then-
    reverse insertion pass of `edit_function_declarations` is a function of
    the SummaryEntry set only.  For any two generation orders (permutations)
    of the same entries with pairwise distinct anchor start bytes - so that
    the application order is strictly descending - sorting by start byte and
    applying in reverse yields identical buffers. -/
theorem edit_insertion_order_independence
    (l₁ l₂ : List (Nat × Str)) (src : Str)
    (hperm : l₁.Perm l₂) (hnd : (l₁.map Prod.fst).Nodup) :
    applyInsertions (pySortDesc l₁) src = applyInsertions (pySortDesc l₂) src := by
  have htrans : ∀ a b c : Nat × Str, (decide (a.1 ≤ b.1)) = true →
      (decide (b.1 ≤ c.1)) = true → (decide (a.1 ≤ c.1)) = true := by
    intro a b c h1 h2
    simp only [decide_eq_true_eq] at h1 h2 ⊢
    omega
  have htotal : ∀ a b : Nat × Str,
      ((decide (a.1 ≤ b.1)) || (decide (b.1 ≤ a.1))) = true := by
    intro a b
    simp only [Bool.or_eq_true, decide_eq_true_eq]
    omega
  haveI : IsAntisymm (Nat × Str) (fun e f => f.1 < e.1) :=
    ⟨fun a b h1 h2 => absurd h2 (by omega)⟩
  have sortedRev : ∀ l : List (Nat × Str), (l.map Prod.fst).Nodup →
      List.Sorted (fun e f : Nat × Str => f.1 < e.1) (pySortDesc l) := by
    intro l hl
    have hsort := List.sorted_mergeSort htrans htotal l
    have hnodup : ((l.mergeSort (fun e f => decide (e.1 ≤ f.1))).map
        Prod.fst).Nodup :=
      ((List.mergeSort_perm l _).map Prod.fst).nodup_iff.mpr hl
    have hne : List.Pairwise (fun a b : Nat × Str => a.1 ≠ b.1)
        (l.mergeSort (fun e f => decide (e.1 ≤ f.1))) :=
      List.pairwise_map.mp hnodup
    have hstrict : List.Pairwise (fun a b : Nat × Str => a.1 < b.1)
        (l.mergeSort (fun e f => decide (e.1 ≤ f.1))) := by
      refine List.Pairwise.imp₂ ?_ hsort hne
      intro a b h1 h2
      simp only [decide_eq_true_eq] at h1
      omega
    unfold pySortDesc
    rw [List.Sorted, List.pairwise_reverse]
    exact hstrict
  have hnd₂ : (l₂.map Prod.fst).Nodup := ((hperm.map Prod.fst).nodup_iff).mp hnd
  have hp : (pySortDesc l₁).Perm (pySortDesc l₂) := by
    unfold pySortDesc
    exact ((List.reverse_perm _).trans
      ((List.mergeSort_perm l₁ _).trans
        (hperm.trans (List.mergeSort_perm l₂ _).symm))).trans
      (List.reverse_perm _).symm
  rw [List.eq_of_perm_of_sorted hp (sortedRev l₁ hnd) (sortedRev l₂ hnd₂)]

/-- Witness for C3: the same two entries generated in the two possible
    orders produce identical final buffers. -/
theorem edit_insertion_order_independence_witness :
    (c3l1.Perm c3l2 ∧ (c3l1.map Prod.fst).Nodup)
    ∧ applyInsertions (pySortDesc c3l1) c3src
        = applyInsertions (pySortDesc c3l2) c3src :=
  ⟨⟨by decide, by decide⟩,
    edit_insertion_order_independence c3l1 c3l2 c3src (by decide) (by decide)⟩

/-! ### Helper lemmas about splitting, stripping and joining -/

lemma splitOnCharAux_ne_nil (sep : Char) (s : Str) :
    ∀ cur, splitOnCharAux sep s cur ≠ [] := by
  induction s with
  | nil => intro cur; simp [splitOnCharAux]
  | cons c cs ih =>
    intro cur
    unfold splitOnCharAux
    by_cases h : c = sep
    · simp [h]
    · simpa [h] using ih (c :: cur)

lemma mem_of_mem_splitOnCharAux (sep : Char) (s : Str) :
    ∀ cur l, l ∈ splitOnCharAux sep s cur → ∀ c ∈ l, c ∈ s ∨ c ∈ cur := by
  induction s with
  | nil =>
    intro cur l hl c hc
    simp only [splitOnCharAux, List.mem_singleton] at hl
    subst hl
    exact Or.inr (List.mem_reverse.mp hc)
  | cons d ds ih =>
    intro cur l hl c hc
    unfold splitOnCharAux at hl
    by_cases h : d = sep
    · rw [if_pos h] at hl
      rcases List.mem_cons.mp hl with h1 | h1
      · subst h1
        exact Or.inr (List.mem_reverse.mp hc)
      · rcases ih [] l h1 c hc with h2 | h2
        · exact Or.inl (List.mem_cons_of_mem _ h2)
        · exact absurd h2 (List.not_mem_nil c)
    · rw [if_neg h] at hl
      rcases ih (d :: cur) l hl c hc with h2 | h2
      · exact Or.inl (List.mem_cons_of_mem _ h2)
      · rcases List.mem_cons.mp h2 with h3 | h3
        · exact Or.inl (h3 ▸ List.mem_cons_self _ _)
        · exact Or.inr h3

lemma not_sep_mem_splitOnCharAux (sep : Char) (s : Str) :
    ∀ cur, sep ∉ cur → ∀ l ∈ splitOnCharAux sep s cur, sep ∉ l := by
  induction s with
  | nil =>
    intro cur hcur l hl
    simp only [splitOnCharAux, List.mem_singleton] at hl
    subst hl
    simpa using hcur
  | cons d ds ih =>
    intro cur hcur l hl
    unfold splitOnCharAux at hl
    by_cases h : d = sep
    · rw [if_pos h] at hl
      rcases List.mem_cons.mp hl with h1 | h1
      · subst h1
        simpa using hcur
      · exact ih [] (List.not_mem_nil sep) l h1
    · rw [if_neg h] at hl
      refine ih (d :: cur) ?_ l hl
      intro hmem
      rcases List.mem_cons.mp hmem with h3 | h3
      · exact h h3.symm
      · exact hcur h3

lemma splitOnCharAux_append_sep (sep : Char) (x : Str) :
    ∀ (cur y : Str), sep ∉ x →
      splitOnCharAux sep (x ++ sep :: y) cur
        = (cur.reverse ++ x) :: splitOnCharAux sep y [] := by
  induction x with
  | nil =>
    intro cur y _
    simp [splitOnCharAux]
  | cons d ds ih =>
    intro cur y hx
    have hd : ¬(d = sep) := fun h => hx (h ▸ List.mem_cons_self _ _)
    show splitOnCharAux sep (d :: (ds ++ sep :: y)) cur = _
    unfold splitOnCharAux
    rw [if_neg hd, ih (d :: cur) y (fun h => hx (List.mem_cons_of_mem _ h))]
    simp
    cases y <;> simp [splitOnCharAux]

lemma splitOnCharAux_no_sep (sep : Char) (x : Str) :
    ∀ cur, sep ∉ x → splitOnCharAux sep x cur = [cur.reverse ++ x] := by
  induction x with
  | nil =>
    intro cur _
    simp [splitOnCharAux]
  | cons d ds ih =>
    intro cur hx
    have hd : ¬(d = sep) := fun h => hx (h ▸ List.mem_cons_self _ _)
    unfold splitOnCharAux
    rw [if_neg hd, ih (d :: cur) (fun h => hx (List.mem_cons_of_mem _ h))]
    simp

lemma splitNl_ne_nil (s : Str) : splitNl s ≠ [] :=
  splitOnCharAux_ne_nil '\n' s []

lemma splitNl_append_nl (x y : Str) (hx : '\n' ∉ x) :
    splitNl (x ++ '\n' :: y) = x :: splitNl y := by
  simpa [splitNl, splitOnChar] using splitOnCharAux_append_sep '\n' x [] y hx

lemma splitNl_no_nl (x : Str) (hx : '\n' ∉ x) : splitNl x = [x] := by
  simpa [splitNl, splitOnChar] using splitOnCharAux_no_sep '\n' x [] hx

lemma no_nl_of_mem_splitNl (s l : Str) (hl : l ∈ splitNl s) : '\n' ∉ l :=
  not_sep_mem_splitOnCharAux '\n' s [] (List.not_mem_nil _) l hl

lemma mem_of_mem_splitNl (s l : Str) (hl : l ∈ splitNl s) (c : Char)
    (hc : c ∈ l) : c ∈ s := by
  rcases mem_of_mem_splitOnCharAux '\n' s [] l hl c hc with h | h
  · exact h
  · exact absurd h (List.not_mem_nil c)

lemma appendLast_nil : ∀ ls : List Str, appendLast [] ls = ls
  | [] => rfl
  | [x] => by simp [appendLast]
  | x :: y :: xs => by
    rw [appendLast, appendLast_nil (y :: xs)]

lemma splitNl_joinNl_append (t : Str) (ht : '\n' ∉ t) :
    ∀ ls : List Str, ls ≠ [] → (∀ l ∈ ls, '\n' ∉ l) →
      splitNl (joinNl ls ++ t) = appendLast t ls := by
  intro ls
  induction ls with
  | nil => intro h; exact absurd rfl h
  | cons x xs ih =>
    intro _ hno
    cases xs with
    | nil =>
      show splitNl (joinNl [x] ++ t) = appendLast t [x]
      have hxt : '\n' ∉ x ++ t := by
        intro hmem
        rcases List.mem_append.mp hmem with h | h
        · exact hno x (List.mem_cons_self _ _) h
        · exact ht h
      simp only [joinNl, joinWith, appendLast]
      exact splitNl_no_nl (x ++ t) hxt
    | cons y ys =>
      have hx : '\n' ∉ x := hno x (List.mem_cons_self _ _)
      have hrest : ∀ l ∈ y :: ys, '\n' ∉ l :=
        fun l hl => hno l (List.mem_cons_of_mem _ hl)
      have hjoin : joinNl (x :: y :: ys) ++ t
          = x ++ '\n' :: (joinNl (y :: ys) ++ t) := by
        simp [joinNl, joinWith, strOf]
      rw [hjoin, splitNl_append_nl x _ hx, ih (by simp) hrest]
      rfl

lemma splitNl_joinNl (ls : List Str) (h : ls ≠ [])
    (hno : ∀ l ∈ ls, '\n' ∉ l) : splitNl (joinNl ls) = ls := by
  have := splitNl_joinNl_append [] (List.not_mem_nil _) ls h hno
  rw [List.append_nil] at this
  rw [this, appendLast_nil]

lemma dropWhile_idem (p : Char → Bool) :
    ∀ l : Str, List.dropWhile p (List.dropWhile p l) = List.dropWhile p l
  | [] => rfl
  | c :: cs => by
    by_cases h : p c
    · rw [List.dropWhile_cons, if_pos h]
      exact dropWhile_idem p cs
    · rw [List.dropWhile_cons, if_neg h, List.dropWhile_cons, if_neg h]

lemma mem_of_mem_pyStrip (s : Str) (c : Char) (hc : c ∈ pyStrip s) : c ∈ s := by
  unfold pyStrip pyLstrip pyRstrip at hc
  have h1 := (List.dropWhile_sublist _).mem hc
  have h2 := (List.dropWhile_sublist (l := s.reverse) _).mem (List.mem_reverse.mp h1)
  exact List.mem_reverse.mp h2

lemma pyStrip_eq_nil_iff (s : Str) :
    pyStrip s = [] ↔ ∀ c ∈ s, isPySpace c = true := by
  constructor
  · intro h c hc
    unfold pyStrip pyLstrip pyRstrip at h
    rw [List.dropWhile_eq_nil_iff] at h
    have hc2 : c ∈ s.reverse := List.mem_reverse.mpr hc
    rw [← List.takeWhile_append_dropWhile isPySpace s.reverse] at hc2
    rcases List.mem_append.mp hc2 with h1 | h1
    · exact List.mem_takeWhile_imp h1
    · exact h c (List.mem_reverse.mpr h1)
  · intro h
    unfold pyStrip pyLstrip pyRstrip
    have h1 : List.dropWhile isPySpace s.reverse = [] :=
      List.dropWhile_eq_nil_iff.mpr (fun x hx => h x (List.mem_reverse.mp hx))
    rw [h1]
    rfl

lemma pyLstrip_pyStrip (s : Str) : pyLstrip (pyStrip s) = pyStrip s := by
  unfold pyStrip pyLstrip
  exact dropWhile_idem _ _

lemma splitWsAux_no_space (s : Str) :
    ∀ cur, (∀ c ∈ cur, isPySpace c = false) →
      ∀ w ∈ splitWsAux s cur, ∀ c ∈ w, isPySpace c = false := by
  induction s with
  | nil =>
    intro cur hcur w hw c hc
    unfold splitWsAux at hw
    split at hw
    · exact absurd hw (List.not_mem_nil w)
    · rw [List.mem_singleton] at hw
      subst hw
      exact hcur c (List.mem_reverse.mp hc)
  | cons d ds ih =>
    intro cur hcur w hw c hc
    unfold splitWsAux at hw
    by_cases hd : isPySpace d
    · rw [if_pos hd] at hw
      by_cases hemp : cur.isEmpty
      · rw [if_pos hemp] at hw
        exact ih [] (by simp) w hw c hc
      · rw [if_neg hemp] at hw
        rcases List.mem_cons.mp hw with h1 | h1
        · subst h1
          exact hcur c (List.mem_reverse.mp hc)
        · exact ih [] (by simp) w h1 c hc
    · rw [if_neg hd] at hw
      refine ih (d :: cur) ?_ w hw c hc
      intro e he
      rcases List.mem_cons.mp he with h1 | h1
      · rw [h1]
        exact Bool.eq_false_iff.mpr hd
      · exact hcur e h1

lemma pySplitWs_no_space (s : Str) :
    ∀ w ∈ pySplitWs s, ∀ c ∈ w, isPySpace c = false :=
  splitWsAux_no_space s [] (by simp)

/-! ### Helper lemmas about the line-prefixed formatter -/

lemma wrapWords_lines (ind : Nat) :
    ∀ (ws : List Str) (cur : Str),
      (cur.length ≤ 120 ∨ ∃ w, (∀ ch ∈ w, isPySpace ch = false) ∧
          (cur = w ∨ cur = spaces ind ++ strOf "/// " ++ w)) →
      (∀ w ∈ ws, ∀ ch ∈ w, isPySpace ch = false) →
      ∀ L ∈ wrapWords ind cur ws,
        L.length ≤ 120 ∨ ∃ w, (∀ ch ∈ w, isPySpace ch = false) ∧
          (L = w ∨ L = spaces ind ++ strOf "/// " ++ w) := by
  intro ws
  induction ws with
  | nil =>
    intro cur hcur _ L hL
    unfold wrapWords at hL
    rw [List.mem_singleton] at hL
    subst hL
    exact hcur
  | cons w ws ih =>
    intro cur hcur hws L hL
    unfold wrapWords at hL
    by_cases hover : 120 < cur.length + w.length + 1
    · rw [if_pos hover] at hL
      rcases List.mem_cons.mp hL with h1 | h1
      · subst h1
        exact hcur
      · refine ih _ ?_ (fun v hv => hws v (List.mem_cons_of_mem _ hv)) L h1
        exact Or.inr ⟨w, hws w (List.mem_cons_self _ _), Or.inr rfl⟩
    · rw [if_neg hover] at hL
      refine ih _ ?_ (fun v hv => hws v (List.mem_cons_of_mem _ hv)) L hL
      left
      simp only [List.length_append, List.length_cons]
      omega

lemma wrapLine_stripped (l : Str) (L : Str) (hL : L ∈ wrapLine (pyStrip l)) :
    L.length ≤ 120 ∨ ∃ w, (∀ ch ∈ w, isPySpace ch = false) ∧
      (L = w ∨ L = strOf "/// " ++ w) := by
  unfold wrapLine at hL
  have hind : (pyStrip l).length - (pyLstrip (pyStrip l)).length = 0 := by
    rw [pyLstrip_pyStrip]
    omega
  rcases hws : pySplitWs (pyStrip l) with _ | ⟨w, ws⟩
  · rw [hws] at hL
    exact absurd hL (List.not_mem_nil L)
  · rw [hws, hind] at hL
    have hall := pySplitWs_no_space (pyStrip l)
    rw [hws] at hall
    have := wrapWords_lines 0 ws w
      (Or.inr ⟨w, hall w (List.mem_cons_self _ _), Or.inl rfl⟩)
      (fun v hv => hall v (List.mem_cons_of_mem _ hv)) L hL
    simpa [spaces] using this

set_option maxRecDepth 4000 in
/-- Counterexample for C5: `wrap_python_comments` performs no wrapping, so a
    150-character input line of two-character words yields an output line of
    154 characters, far beyond the 120 maximum, with no over-long word in it. -/
theorem wrap_python_comments_exceeds_width :
    ∃ L ∈ splitNl (wrap_python_comments c5text),
      120 < L.length ∧ ∀ w ∈ pySplitWs L, w.length ≤ 120 := by
  decide

/-- C5 (amended).  The wrapping law holds for the Swift-style formatter with
    a marker-inclusive exception: every output line of
    `wrap_triple_slash_comments` is within 120 characters unless it consists
    of a single whitespace-free word, or of the marker "/// " followed by
    one such word, emitted unsplit.  The Python-style formatter performs no
    wrapping at all: each of its output lines is exactly "/// " prepended to
    one input line, of unbounded length. -/
theorem wrap_formatter_line_width_law :
    (∀ text : Str, ∀ L ∈ wrap_triple_slash_lines text,
        L.length ≤ 120 ∨ ∃ w, (∀ ch ∈ w, isPySpace ch = false) ∧
          (L = w ∨ L = strOf "/// " ++ w))
    ∧ (∀ text : Str, ∀ L ∈ splitNl (wrap_python_comments text),
        ∃ l ∈ splitNl text, L = strOf "/// " ++ l) := by
  constructor
  · intro text L hL
    unfold wrap_triple_slash_lines at hL
    rw [List.mem_flatten] at hL
    obtain ⟨ls, hls, hLls⟩ := hL
    rw [List.mem_map] at hls
    obtain ⟨l, hl, rfl⟩ := hls
    have hl2 : l ∈ (splitNl text).map pyStrip := (List.takeWhile_sublist _).mem hl
    rw [List.mem_map] at hl2
    obtain ⟨l0, _, rfl⟩ := hl2
    exact wrapLine_stripped l0 L hLls
  · intro text L hL
    have hlines : splitNl (wrap_python_comments text)
        = (splitNl text).map (fun line => strOf "/// " ++ line) := by
      unfold wrap_python_comments
      apply splitNl_joinNl
      · intro h
        rcases List.exists_cons_of_ne_nil (splitNl_ne_nil text) with ⟨a, as, ha⟩
        rw [ha] at h
        exact absurd h (by simp)
      · intro l hl
        rw [List.mem_map] at hl
        obtain ⟨l0, hl0, rfl⟩ := hl
        intro hmem
        rcases List.mem_append.mp hmem with h | h
        · exact absurd h (by decide)
        · exact no_nl_of_mem_splitNl text l0 hl0 h
    rw [hlines, List.mem_map] at hL
    obtain ⟨l, hl, rfl⟩ := hL
    exact ⟨l, hl, rfl⟩

/-- Witness for C5 (amended): a concrete short line through the Swift-style
    formatter and a concrete line through the Python-style formatter. -/
theorem wrap_formatter_line_width_law_witness :
    ((strOf "/// hi") ∈ wrap_triple_slash_lines (strOf "/// hi")
      ∧ ((strOf "/// hi").length ≤ 120 ∨ ∃ w, (∀ ch ∈ w, isPySpace ch = false) ∧
          ((strOf "/// hi") = w ∨ (strOf "/// hi") = strOf "/// " ++ w)))
    ∧ ((strOf "/// x") ∈ splitNl (wrap_python_comments (strOf "x"))
      ∧ ∃ l ∈ splitNl (strOf "x"), strOf "/// x" = strOf "/// " ++ l) :=
  ⟨⟨by decide,
    wrap_formatter_line_width_law.1 (strOf "/// hi") (strOf "/// hi") (by decide)⟩,
   ⟨by decide,
    wrap_formatter_line_width_law.2 (strOf "x") (strOf "/// x") (by decide)⟩⟩

/-- Counterexample for C4: on whitespace-only raw text the Swift-style
    formatter does return the empty marker, but the Swift branch of the
    insertion loop has no emptiness guard and still mutates the buffer
    (inserting a newline plus indent), so the Rewriter does not perform zero
    insertions in both styles. -/
theorem empty_summary_swift_insertion_occurs :
    wrap_triple_slash_comments (strOf "   ") = []
    ∧ edit_swift_insertion (strOf "let x = 1\n") 0 0
        (wrap_triple_slash_comments (strOf "   ")) ≠ strOf "let x = 1\n" := by
  decide

/-- C4 (amended).  Formatting empty or whitespace-only raw text yields the
    empty marker in both styles, and the Python branch then performs zero
    insertions for that node; the Swift branch however still splices a
    newline-plus-indent block even when the rendered summary is empty. -/
theorem empty_summary_formatting_and_insertions :
    (∀ (text : Str) (n : Nat), pyStrip text = [] → wrap_docstring text n = [])
    ∧ (∀ text : Str, pyStrip text = [] → wrap_triple_slash_comments text = [])
    ∧ (∀ (src : Str) (sb eb col : Nat) (summary : Str), pyStrip summary = [] →
        edit_python_insertion src sb eb col summary = src)
    ∧ (∀ col : Nat, swiftRender col [] = '\n' :: spaces col) := by
  have hdoc : ∀ (text : Str) (n : Nat), pyStrip text = [] →
      wrap_docstring text n = [] := by
    intro text n h
    unfold wrap_docstring
    rw [if_pos h]
  refine ⟨hdoc, ?_, ?_, ?_⟩
  · intro text h
    unfold wrap_triple_slash_comments wrap_triple_slash_lines
    obtain ⟨l0, rest, hsplit⟩ := List.exists_cons_of_ne_nil (splitNl_ne_nil text)
    have hall : ∀ c ∈ l0, isPySpace c = true := fun c hc =>
      (pyStrip_eq_nil_iff text).mp h c
        (mem_of_mem_splitNl text l0 (hsplit ▸ List.mem_cons_self _ _) c hc)
    have hstrip : pyStrip l0 = [] := (pyStrip_eq_nil_iff l0).mpr hall
    rw [hsplit, List.map_cons, List.takeWhile_cons, hstrip, if_neg (by decide)]
    rfl
  · intro src sb eb col summary h
    simp [edit_python_insertion, hdoc summary col h]
  · intro col
    unfold swiftRender
    have h1 : splitNl ([] : Str) = [[]] := rfl
    rw [h1]
    simp [joinNl, joinWith, spaces, List.drop_replicate]

/-- Witness for C4 (amended): a concrete whitespace-only summary through all
    four conjuncts. -/
theorem empty_summary_formatting_and_insertions_witness :
    pyStrip (strOf " \t") = []
    ∧ wrap_docstring (strOf " \t") 2 = []
    ∧ wrap_triple_slash_comments (strOf " \t") = []
    ∧ edit_python_insertion
        (strOf "def f():\n    pass\ndef g():\n    pass\n") 18 35 0 (strOf " \t")
        = strOf "def f():\n    pass\ndef g():\n    pass\n"
    ∧ swiftRender 2 [] = '\n' :: spaces 2 :=
  ⟨by decide,
   empty_summary_formatting_and_insertions.1 _ 2 (by decide),
   empty_summary_formatting_and_insertions.2.1 _ (by decide),
   empty_summary_formatting_and_insertions.2.2.1 _ 18 35 0 _ (by decide),
   empty_summary_formatting_and_insertions.2.2.2 2⟩

/-- Counterexample for C6: `wrap_docstring` removes a fixed 8-character
    prefix from each stripped line rather than stripping the "/// " label
    marker (4 characters), so on the line "/// Hello world" four content
    characters are lost; and the closing delimiter is attached directly to
    the last content line instead of standing on its own line. -/
theorem wrap_docstring_marker_counterexample :
    splitNl (wrap_docstring (strOf "/// Hello world") 0)
        = [strOf "    \"\"\"", strOf "    o world\"\"\""]
    ∧ splitNl (wrap_docstring (strOf "/// Hello world") 0)
        ≠ [strOf "    \"\"\"", strOf "    Hello world", strOf "    \"\"\""] := by
  decide

/-- C6 (amended).  For every non-blank input, `wrap_docstring` strips the
    surrounding whitespace of each line and removes its first 8 characters
    (the 4-character "/// " marker plus 4 further characters), re-indents
    every line to `indent_level + 4`, puts the opening delimiter on a line of
    its own, and appends the closing delimiter directly after the last
    re-indented line. -/
theorem wrap_docstring_block_structure (text : Str) (n : Nat)
    (h : pyStrip text ≠ []) :
    splitNl (wrap_docstring text n)
      = (spaces (n + 4) ++ strOf "\"\"\"")
          :: appendLast (strOf "\"\"\"")
              ((splitNl text).map
                (fun line => spaces (n + 4) ++ (pyStrip line).drop 8)) := by
  unfold wrap_docstring
  rw [if_neg h]
  have hq : strOf "\"\"\"\n" = strOf "\"\"\"" ++ ['\n'] := by decide
  rw [hq]
  have hre : spaces (n + 4) ++ (strOf "\"\"\"" ++ ['\n'])
        ++ joinNl ((splitNl text).map
            (fun line => spaces (n + 4) ++ (pyStrip line).drop 8))
        ++ strOf "\"\"\""
      = (spaces (n + 4) ++ strOf "\"\"\"")
        ++ '\n' :: (joinNl ((splitNl text).map
            (fun line => spaces (n + 4) ++ (pyStrip line).drop 8))
          ++ strOf "\"\"\"") := by
    simp
  rw [hre]
  have hX : '\n' ∉ spaces (n + 4) ++ strOf "\"\"\"" := by
    intro hmem
    rcases List.mem_append.mp hmem with h1 | h1
    · rw [spaces, List.mem_replicate] at h1
      exact absurd h1.2 (by decide)
    · exact absurd h1 (by decide)
  rw [splitNl_append_nl _ _ hX]
  congr 1
  apply splitNl_joinNl_append _ (by decide)
  · intro hmap
    rcases List.exists_cons_of_ne_nil (splitNl_ne_nil text) with ⟨a, as, ha⟩
    rw [ha] at hmap
    exact absurd hmap (by simp)
  · intro l hl
    rw [List.mem_map] at hl
    obtain ⟨l0, hl0, rfl⟩ := hl
    intro hmem
    rcases List.mem_append.mp hmem with h1 | h1
    · rw [spaces, List.mem_replicate] at h1
      exact absurd h1.2 (by decide)
    · exact no_nl_of_mem_splitNl text l0 hl0
        (mem_of_mem_pyStrip l0 '\n' (List.mem_of_mem_drop h1))

/-- Witness for C6 (amended): the block structure at a concrete non-blank
    input. -/
theorem wrap_docstring_block_structure_witness :
    pyStrip (strOf "/// abcdefgh") ≠ []
    ∧ splitNl (wrap_docstring (strOf "/// abcdefgh") 0)
        = (spaces 4 ++ strOf "\"\"\"")
          :: appendLast (strOf "\"\"\"")
              ((splitNl (strOf "/// abcdefgh")).map
                (fun line => spaces 4 ++ (pyStrip line).drop 8)) :=
  ⟨by decide, wrap_docstring_block_structure (strOf "/// abcdefgh") 0 (by decide)⟩

/-- C7 (evaluation at the failing input).  For the spec's own Scenario A
    buffer "def f():\n    return 1\n" with the function node anchored at
    bytes [0, 21) and a non-empty rendered comment, the Python insertion
    step performs no insertion at all: `rfind(b'def', 0, 0)` cannot find the
    node's own "def" keyword (it searches strictly before the node start),
    returns -1, and the guard skips the node, so the buffer is returned
    unchanged instead of receiving the comment after the line break
    following the colon. -/
theorem edit_python_insertion_skips_first_declaration :
    wrap_docstring (strOf "/// Returns one.") 0 ≠ []
    ∧ edit_python_insertion (strOf "def f():\n    return 1\n") 0 21 0
        (strOf "/// Returns one.")
        = strOf "def f():\n    return 1\n" := by
  decide

/-- Counterexample for C8: when both the primary generation call and the
    fallback fail, the node's summary degrades to the empty string, but in
    the Swift style the node is not skipped: the insertion loop has no
    emptiness guard and still mutates the buffer at the node (splicing a
    newline-plus-indent block), refuting "that single node is skipped (no
    comment inserted)" for both styles. -/
theorem generation_double_failure_swift_not_skipped :
    generate_function_summary (fun _ => none) (fun _ => none)
        (strOf "func f()") (strOf "swift") = []
    ∧ edit_swift_loop
        [(⟨10, 0⟩, generate_function_summary (fun _ => none) (fun _ => none)
            (strOf "func f()") (strOf "swift"))]
        (strOf "let x = 1\nfunc f()\n")
        ≠ strOf "let x = 1\nfunc f()\n" := by
  decide

/-- C8 (amended).  Failure handling of the generation path: when the primary
    LLM call raises (oracle answers `none`), `generate_function_summary`
    falls back to `chain_summarize` on the whole node text instead of
    aborting the file; when the fallback also raises, the summary degrades
    to the empty string, and processing of the remaining declarations
    continues to completion in both styles.  In the Python style the
    doubly-failed node is skipped - it contributes no insertion (removing
    its entry from the list leaves the final buffer unchanged) - while in
    the unguarded Swift style the loop still splices a newline-plus-indent
    block at the node before processing the rest. -/
theorem generation_failure_fallback_and_continuation :
    (∀ (gfd cs : Str → Option Str) (func_body ext : Str),
        gfd func_body = none →
        generate_function_summary gfd cs func_body ext
          = chain_summarize cs func_body ext)
    ∧ (∀ (gfd cs : Str → Option Str) (func_body ext : Str),
        gfd func_body = none → cs func_body = none →
        generate_function_summary gfd cs func_body ext = [])
    ∧ (∀ (pre post : List (PyAnchor × Str)) (anchor : PyAnchor) (src : Str),
        edit_python_loop (pre ++ (anchor, ([] : Str)) :: post) src
          = edit_python_loop (pre ++ post) src)
    ∧ (∀ (pre post : List (SwiftAnchor × Str)) (anchor : SwiftAnchor) (src : Str),
        edit_swift_loop (pre ++ (anchor, ([] : Str)) :: post) src
          = edit_swift_loop post
              (insertAt (edit_swift_loop pre src) anchor.start_byte
                ('\n' :: spaces anchor.col))) := by
  have hfall : ∀ (gfd cs : Str → Option Str) (func_body ext : Str),
      gfd func_body = none →
      generate_function_summary gfd cs func_body ext
        = chain_summarize cs func_body ext := by
    intro gfd cs fb ext h
    unfold generate_function_summary generate_function_documentation
    rw [h]
    rfl
  refine ⟨hfall, ?_, ?_, ?_⟩
  · intro gfd cs fb ext h1 h2
    rw [hfall gfd cs fb ext h1]
    unfold chain_summarize
    rw [h2]
  · intro pre post anchor src
    unfold edit_python_loop
    rw [List.foldl_append, List.foldl_append, List.foldl_cons]
    have hstep : ∀ B : Str,
        edit_python_insertion B anchor.start_byte anchor.end_byte anchor.col []
          = B := fun B => rfl
    rw [hstep]
  · intro pre post anchor src
    have hrender : swiftRender anchor.col [] = '\n' :: spaces anchor.col := by
      unfold swiftRender
      have h1 : splitNl ([] : Str) = [[]] := rfl
      rw [h1]
      simp [joinNl, joinWith, spaces, List.drop_replicate]
    unfold edit_swift_loop
    rw [List.foldl_append, List.foldl_cons]
    show List.foldl _ (edit_swift_insertion _ anchor.start_byte anchor.col []) post = _
    rw [edit_swift_insertion, hrender]

/-- Witness for C8 (amended): concrete always-failing oracles, a concrete
    Python-branch run in which the empty-summary node is skipped, and a
    concrete Swift-branch run in which it still causes an insertion. -/
theorem generation_failure_fallback_and_continuation_witness :
    generate_function_summary (fun _ => none) (fun _ => none)
        (strOf "def f(): pass") (strOf "python")
      = chain_summarize (fun _ => none) (strOf "def f(): pass") (strOf "python")
    ∧ generate_function_summary (fun _ => none) (fun _ => none)
        (strOf "def f(): pass") (strOf "python") = []
    ∧ edit_python_loop ([] ++ (⟨0, 13, 0⟩, ([] : Str)) :: []) (strOf "def f(): pass")
        = edit_python_loop ([] ++ []) (strOf "def f(): pass")
    ∧ edit_swift_loop ([] ++ (⟨10, 4⟩, ([] : Str)) :: []) (strOf "let y = 2\nrest")
        = edit_swift_loop []
            (insertAt (edit_swift_loop [] (strOf "let y = 2\nrest")) 10
              ('\n' :: spaces 4)) :=
  ⟨generation_failure_fallback_and_continuation.1 _ _ _ _ rfl,
   generation_failure_fallback_and_continuation.2.1 _ _ _ _ rfl rfl,
   generation_failure_fallback_and_continuation.2.2.1 [] [] ⟨0, 13, 0⟩ _,
   generation_failure_fallback_and_continuation.2.2.2 [] [] ⟨10, 4⟩ _⟩

/-- Counterexample for C2: the extension of "a.py.txt" is "txt", which is
    not in the mapping, yet the resolution succeeds with "python", because
    the tag is looked up for the segment after the first dot, not for the
    final extension. -/
theorem parse_source_final_extension_counterexample :
    LANG_MAPPINGS (strOf "txt") = none
    ∧ resolveLangTag (strOf "a.py.txt") = Except.ok (strOf "python") := by
  decide

/-- C2 (amended).  `parse_source` fails with a lookup error exactly when the
    segment of the basename between the first and second dot is missing
    (IndexError) or not a key of the mapping (KeyError); an unsupported
    final extension alone does not cause a failure.  When the resolution
    does fail the error propagates uncaught through the pipeline before any
    later step - in particular before every output-writing step - runs, so
    the failure is fatal, surfaced immediately, and no partial output is
    produced. -/
theorem parse_source_lookup_failure_characterization :
    (∀ file : Str,
      (∃ e, resolveLangTag file = Except.error e) ↔
        ((splitOnChar '.' file)[1]? = none
          ∨ ∃ seg, (splitOnChar '.' file)[1]? = some seg
              ∧ LANG_MAPPINGS seg = none))
    ∧ (∀ {α : Type} (steps : List (α → α)) (file : Str) (s : α) (e : PyErr),
        resolveLangTag file = Except.error e →
        runPipeline steps file s = Except.error e) := by
  constructor
  · intro file
    unfold resolveLangTag
    rcases h1 : (splitOnChar '.' file)[1]? with _ | seg
    · simp
    · rcases h2 : LANG_MAPPINGS seg with _ | tag
      · simp [h2]
      · simp [h2]
  · intro α steps file s e h
    unfold runPipeline
    rw [h]

/-- Witness for C2 (amended): a basename with an unknown segment after the
    first dot fails, and the pipeline then produces the error and no output. -/
theorem parse_source_lookup_failure_characterization_witness :
    (∃ e, resolveLangTag (strOf "a.foo") = Except.error e)
    ∧ runPipeline ([] : List (Str → Str)) (strOf "a.foo") (strOf "x")
        = Except.error (PyErr.keyError (strOf "foo")) :=
  ⟨(parse_source_lookup_failure_characterization.1 (strOf "a.foo")).mpr
      (Or.inr ⟨strOf "foo", by decide, by decide⟩),
   parse_source_lookup_failure_characterization.2 [] (strOf "a.foo") (strOf "x")
      (PyErr.keyError (strOf "foo")) (by decide)⟩

/-- C10.  The language tag is resolved from the segment between the first
    and second dot of the basename (`file.split(".")[1]`, identically in
    `parse_source` and `edit_function_declarations`), not from the final
    extension; consequently "a.test.py" fails with a KeyError on "test"
    even though its final extension "py" is in the mapping. -/
theorem language_tag_second_segment_resolution :
    (∀ (file : Str) (s0 s1 : Str) (srest : List Str),
        splitOnChar '.' file = s0 :: s1 :: srest →
        resolveLangTag file
          = (match LANG_MAPPINGS s1 with
             | none => Except.error (PyErr.keyError s1)
             | some tag => Except.ok tag))
    ∧ LANG_MAPPINGS (strOf "py") = some (strOf "python")
    ∧ resolveLangTag (strOf "a.test.py")
        = Except.error (PyErr.keyError (strOf "test")) := by
  refine ⟨?_, by decide, by decide⟩
  intro file s0 s1 srest h
  unfold resolveLangTag
  rw [h]
  simp

/-- Witness for C10: a multi-dot basename whose middle segment is a known
    key resolves to that segment's language, ignoring the final extension. -/
theorem language_tag_second_segment_resolution_witness :
    splitOnChar '.' (strOf "x.js.py")
        = [strOf "x", strOf "js", strOf "py"]
    ∧ resolveLangTag (strOf "x.js.py") = Except.ok (strOf "javascript") :=
  ⟨by decide,
   (language_tag_second_segment_resolution.1 (strOf "x.js.py")
      (strOf "x") (strOf "js") [strOf "py"] (by decide)).trans (by decide)⟩

/-- Filtering the entry list produced by mapping over a key-distinct node
    list picks out exactly the one entry of a given node. -/
lemma filter_map_key_singleton {α β : Type} (g : α → β) (key : α → Nat) :
    ∀ l : List α, (l.map key).Nodup → ∀ c ∈ l,
      (l.map (fun x => (x, g x))).filter (fun e => key e.1 == key c)
        = [(c, g c)] := by
  intro l
  induction l with
  | nil => intro _ c hc; exact absurd hc (List.not_mem_nil c)
  | cons x xs ih =>
    intro hnd c hc
    rw [List.map_cons, List.nodup_cons] at hnd
    rcases List.mem_cons.mp hc with h1 | h1
    · subst h1
      rw [List.map_cons, List.filter_cons, if_pos (beq_self_eq_true _)]
      have hnil : ((xs.map (fun x => (x, g x))).filter
          (fun e => key e.1 == key c)) = [] := by
        rw [List.filter_eq_nil_iff]
        intro e he
        rw [List.mem_map] at he
        obtain ⟨y, hy, rfl⟩ := he
        intro hbeq
        rw [beq_iff_eq] at hbeq
        exact hnd.1 (hbeq ▸ List.mem_map_of_mem key hy)
      rw [hnil]
    · have hne : ¬(key x == key c) = true := by
        rw [beq_iff_eq]
        intro heq
        exact hnd.1 (heq ▸ List.mem_map_of_mem key h1)
      rw [List.map_cons, List.filter_cons, if_neg hne]
      exact ih hnd.2 c h1

/-- C9.  For every class node of the tree (assuming the tree-sitter
    invariant that node ids are distinct), the combine loop produces exactly
    one class-level SummaryEntry anchored at that class; its text is the
    combination of all member summaries when the class has at least one
    discoverable member declaration, and the whole-class-text
    `chain_summarize` fallback when it has none. -/
theorem class_summary_group_unique_entry
    (gfd cs : Str → Option Str) (ext : Str) (t : PTree)
    (hids : ((classesOf t).map (fun c => c.data.id)).Nodup) :
    ∀ c ∈ classesOf t,
      (edit_class_level_entries gfd cs ext t).filter
          (fun e => e.1.data.id == c.data.id)
        = [(c, classText gfd cs ext c)]
      ∧ (memberDecls c = [] →
          classText gfd cs ext c = chain_summarize cs c.data.text ext)
      ∧ (∀ m ms, memberDecls c = m :: ms →
          classText gfd cs ext c
            = generate_combined_summary cs
                ((m :: ms).map
                  (fun mm => generate_function_summary gfd cs mm.data.text ext))
                ext) := by
  intro c hc
  refine ⟨?_, ?_, ?_⟩
  · unfold edit_class_level_entries
    exact filter_map_key_singleton (classText gfd cs ext) (fun x => x.data.id)
      (classesOf t) hids c hc
  · intro h
    unfold classText
    rw [h]
  · intro m ms h
    unfold classText
    rw [h]

/-- Witness for C9: a one-class tree with one method; the single class-level
    entry is anchored at the class node. -/
theorem class_summary_group_unique_entry_witness :
    ((classesOf demoTree).map (fun c => c.data.id)).Nodup
    ∧ (edit_class_level_entries (fun _ => none) (fun _ => none)
          (strOf "python") demoTree).filter
        (fun e => e.1.data.id == demoClass.data.id)
      = [(demoClass,
          classText (fun _ => none) (fun _ => none) (strOf "python") demoClass)] := by
  have hclasses : classesOf demoTree = [demoClass] := rfl
  refine ⟨by rw [hclasses]; decide, ?_⟩
  exact (class_summary_group_unique_entry (fun _ => none) (fun _ => none)
      (strOf "python") demoTree (by rw [hclasses]; decide) demoClass
      (by rw [hclasses]; exact List.mem_singleton.mpr rfl)).1
